import Mathlib

/-!
Verification of the sfurman3/chatroom core against its specification.

The Go sources are shallowly embedded:

* `logical.Clock` (src/logical/logicalClock.go and the variant in
  src/unnamed/part_000) is a non-negative arbitrary-precision counter
  (`math/big.Int` constrained to naturals by `SetString`); it is embedded as
  `Nat`.  A nil (lazily initialised) counter reads as zero, so the zero value
  of `Nat` models the uninitialised clock exactly.
* `vector.Clock` (src/vector/vectorClock.go) is a structure with an `id` and a
  list of logical counters.
* `vector.MessageReceptacle` state is a counter list plus the set of pending
  `(message, decoded clock)` pairs; the Go map is modelled as a list whose
  order stands for the (arbitrary) map iteration order, and the Go pointer
  identity of a message is modelled by a `tag` field.
* The peer server (src/unnamed/part_003, src/server/server.go) is embedded for
  the `alive` command handler and the `broadcast` routine; real-time instants
  and `time.Duration` are embedded as `Int` nanoseconds.

Functions that mutate their receiver in Go are embedded as pure functions
returning the new value; a Go function that returns an error and leaves its
receiver unchanged is embedded as an `Option` (`none` = error returned,
receiver unchanged).
-/

namespace Logical

/-- logical.Clock.Tick: increments the clock by 1. -/
def Tick (clk : Nat) : Nat := clk + 1

/-- logical.Clock.Cmp: three-way comparison, -1 / 0 / 1 as big.Int.Cmp. -/
def Cmp (clk other : Nat) : Int :=
  if clk < other then -1 else if other < clk then 1 else 0

/-- logical.Clock.CmpOffset: compares clk + offset with other; the temporary
mutation of the Go code is undone before returning, so the embedding is the
comparison of the shifted value. -/
def CmpOffset (clk : Nat) (offset : Int) (other : Nat) : Int :=
  if (clk : Int) + offset < (other : Int) then -1
  else if (other : Int) < (clk : Int) + offset then 1 else 0

/-- logical.Clock.Set: sets clk to other. -/
def Set (_clk other : Nat) : Nat := other

/-- logical.Clock.Max: sets clk to the maximum of clk and other
(`if clk.Cmp(other) < 0 { clk.counter.Set(other.counter) }`). -/
def Max (clk other : Nat) : Nat :=
  if Cmp clk other < 0 then Set clk other else clk

/-- logical.Clock.TickReceive (src/logical/logicalClock.go:79-81):
`clk.Max(other).Tick()`. -/
def TickReceive (clk other : Nat) : Nat := Tick (Max clk other)

/-- logical.Clock.TickReceive, the case-split variant of src/unnamed/part_000
lines 64-72: switch on Cmp; on 0 or 1 tick clk, on -1 set clk to other + 1. -/
def TickReceiveCase (clk other : Nat) : Nat :=
  if Cmp clk other = 0 ∨ Cmp clk other = 1 then Tick clk
  else other + 1

/-- logical.MaxBase = big.MaxBase = 62, the largest base accepted by the
string conversions of math/big. -/
def MaxBase : Nat := 62

theorem cmp_lt_zero_iff (a b : Nat) : Cmp a b < 0 ↔ a < b := by
  unfold Cmp; split_ifs <;> simp <;> omega

theorem cmp_pos_iff (a b : Nat) : 0 < Cmp a b ↔ b < a := by
  unfold Cmp; split_ifs <;> simp <;> omega

theorem cmp_le_zero_iff (a b : Nat) : Cmp a b ≤ 0 ↔ a ≤ b := by
  unfold Cmp; split_ifs <;> simp <;> omega

theorem cmp_eq_zero_iff (a b : Nat) : Cmp a b = 0 ↔ a = b := by
  unfold Cmp; split_ifs <;> simp <;> omega

theorem cmpOffset_one_eq_zero_iff (a b : Nat) :
    CmpOffset a 1 b = 0 ↔ a + 1 = b := by
  unfold CmpOffset; split_ifs <;> simp <;> omega

end Logical

/-- C9: both TickReceive implementations compute max(clk, other) + 1 (the
uninitialised zero-value clock reads as zero, which is the `Nat` zero here),
hence they agree on all inputs; the argument clock is left unchanged since the
embedding is pure and only clk's new value is produced. -/
theorem logical_tickReceive_eq_max_then_tick (clk other : Nat) :
    Logical.TickReceive clk other = max clk other + 1 ∧
    Logical.TickReceiveCase clk other = max clk other + 1 ∧
    Logical.TickReceive clk other = Logical.TickReceiveCase clk other := by
  unfold Logical.TickReceive Logical.TickReceiveCase Logical.Tick Logical.Max
    Logical.Set Logical.Cmp
  simp only [Nat.max_def]
  split_ifs <;> simp_all <;> omega

namespace Vector

/-- vector.Clock (src/vector/vectorClock.go:39-42): an owner id in 1..n and a
length-n vector of logical counters.  NOTE of the source: vector clocks are
indexed starting at 1, so component i of the Go slice is `vector[i-1]`. -/
structure Clock where
  id : Nat
  vector : List Nat
deriving DecidableEq, Repr

/-- vector.Clock.Length. -/
def Length (clk : Clock) : Nat := clk.vector.length

/-- Component i (0-based slice index) of a clock, as the Go code reads
`clk.vector[i]`; indices are in range in every use reachable from the public
API, so the 0 default is never observed there. -/
def comp (clk : Clock) (i : Nat) : Nat := clk.vector.getD i 0

/-- vector.Clock.TickLocal (src/vector/vectorClock.go:367-372): increments the
local component `vector[id-1]`, a no-op on a length-0 clock. -/
def TickLocal (clk : Clock) : Clock :=
  if Length clk = 0 then clk
  else { clk with vector := clk.vector.set (clk.id - 1) (Logical.Tick (comp clk (clk.id - 1))) }

/-- vector.Clock.ErrComparableTo (src/vector/vectorClock.go:488-498): true iff
the Go method returns a non-nil error (clk has length 0, or lengths differ). -/
def ErrComparableTo (clk other : Clock) : Bool :=
  Length clk == 0 || Length other != Length clk

/-- vector.Clock.PairwiseInconsistent (src/vector/vectorClock.go:479-482):
`clk[clk.id-1] < other[clk.id-1] OR other[other.id-1] < clk[other.id-1]`. -/
def PairwiseInconsistent (clk other : Clock) : Bool :=
  decide (Logical.Cmp (comp clk (clk.id - 1)) (comp other (clk.id - 1)) < 0) ||
  decide (Logical.Cmp (comp other (other.id - 1)) (comp clk (other.id - 1)) < 0)

/-- vector.Clock.TickReceive (src/vector/vectorClock.go:383-401): on success
every non-local component becomes the max of the two clocks at that index;
`none` models a non-nil error with clk left unmodified. -/
def TickReceive (clk other : Clock) : Option Clock :=
  if ErrComparableTo clk other then none
  else if PairwiseInconsistent clk other then none
  else some { clk with
    vector := (List.range clk.vector.length).map (fun i =>
      if i ≠ clk.id - 1 then Logical.Max (comp clk i) (comp other i) else comp clk i) }

/-- vector.Clock.Equal (src/vector/vectorClock.go:407-422), embedded exactly as
written: the component loop compares `clk.vector[i]` with itself. -/
def Equal (clk other : Clock) : Bool :=
  let clockLen := Length clk
  let otherLen := Length other
  if clockLen == 0 && clockLen == otherLen then true
  else if clockLen != otherLen then false
  else (List.range clockLen).all (fun i =>
    decide (Logical.Cmp (comp clk i) (comp clk i) = 0))

/-- vector.Clock.LessThan (src/vector/vectorClock.go:434-446): O(1)
happens-before test comparing only the sender components. -/
def LessThan (clk other : Clock) : Bool :=
  if ErrComparableTo clk other then false
  else if clk.id == other.id then
    decide (Logical.Cmp (comp clk (clk.id - 1)) (comp other (clk.id - 1)) < 0)
  else if PairwiseInconsistent clk other then false
  else decide (Logical.Cmp (comp clk (clk.id - 1)) (comp other (clk.id - 1)) ≤ 0)

/-- vector.Clock.Concurrent (src/vector/vectorClock.go:458-471). -/
def Concurrent (clk other : Clock) : Bool :=
  if clk.id == other.id then false
  else if ErrComparableTo clk other then false
  else if PairwiseInconsistent clk other then false
  else decide (0 < Logical.Cmp (comp clk (clk.id - 1)) (comp other (clk.id - 1))) &&
       decide (0 < Logical.Cmp (comp other (other.id - 1)) (comp clk (other.id - 1)))

end Vector

/-- C10: vector.Clock.Equal compares each component of the receiver with
itself, so it never detects a value difference: it returns true exactly when
the two lengths agree (in particular for both lengths 0), false exactly when
they differ — demonstrated on two equal-length clocks with entirely different
component values. -/
theorem vector_equal_ignores_components :
    (∀ clk other : Vector.Clock,
      Vector.Equal clk other = decide (Vector.Length clk = Vector.Length other)) ∧
    Vector.Equal ⟨1, [5, 7]⟩ ⟨2, [1, 2]⟩ = true := by
  constructor
  · intro clk other
    unfold Vector.Equal
    simp only [Logical.cmp_eq_zero_iff]
    by_cases h0 : Vector.Length clk = 0 <;> by_cases he : Vector.Length clk = Vector.Length other <;>
      simp [h0, he, List.all_eq_true]
  · decide

theorem logical_max_eq (a b : Nat) : Logical.Max a b = max a b := by
  unfold Logical.Max Logical.Set Logical.Cmp
  split_ifs <;> omega

theorem errComparableTo_false_iff (a b : Vector.Clock) :
    Vector.ErrComparableTo a b = false ↔
      (Vector.Length a ≠ 0 ∧ Vector.Length b = Vector.Length a) := by
  simp [Vector.ErrComparableTo]

theorem pairwiseInconsistent_symm (a b : Vector.Clock) :
    Vector.PairwiseInconsistent a b = Vector.PairwiseInconsistent b a := by
  unfold Vector.PairwiseInconsistent
  exact Bool.or_comm _ _


theorem errComparableTo_true_iff (a b : Vector.Clock) :
    Vector.ErrComparableTo a b = true ↔
      (Vector.Length a = 0 ∨ Vector.Length b ≠ Vector.Length a) := by
  simp [Vector.ErrComparableTo]

theorem getD_map_range (n i : Nat) (f : Nat → Nat) (d : Nat) :
    (((List.range n).map f).getD i d) = if i < n then f i else d := by
  by_cases h : i < n
  · simp [List.getD_eq_getElem?_getD, List.getElem?_map, List.getElem?_range, h]
  · have hlen : ((List.range n).map f).length ≤ i := by
      simpa using Nat.le_of_not_lt h
    simp [List.getD_eq_getElem?_getD, List.getElem?_eq_none hlen, h]

/-- C3: vector.Clock.TickReceive fails (returning its error, with clk left
unchanged, modelled by `none`) exactly when the lengths differ, either clock
is uninitialised (length 0), or the pair is pairwise inconsistent; on success
it keeps the id and the local component `vector[id-1]` and sets every other
component j to the max of the two clocks at that index (`other` is never
modified — the embedding returns only clk's new value).  The concrete S2
scenario (n = 4, ids 2 and 3) is included verbatim. -/
theorem vector_tickReceive_spec (clk other : Vector.Clock) :
    (Vector.TickReceive clk other = none ↔
      (Vector.Length clk ≠ Vector.Length other ∨ Vector.Length clk = 0 ∨
       Vector.Length other = 0 ∨ Vector.PairwiseInconsistent clk other = true)) ∧
    (∀ res, Vector.TickReceive clk other = some res →
      res.id = clk.id ∧
      Vector.Length res = Vector.Length clk ∧
      Vector.comp res (clk.id - 1) = Vector.comp clk (clk.id - 1) ∧
      (∀ j, j < Vector.Length clk → j ≠ clk.id - 1 →
        Vector.comp res j = max (Vector.comp clk j) (Vector.comp other j))) ∧
    (Vector.TickLocal ⟨2, [0, 0, 0, 0]⟩ = ⟨2, [0, 1, 0, 0]⟩ ∧
     Vector.TickReceive ⟨3, [0, 0, 0, 0]⟩ ⟨2, [0, 1, 0, 0]⟩ = some ⟨3, [0, 1, 0, 0]⟩ ∧
     Vector.TickLocal ⟨3, [0, 1, 0, 0]⟩ = ⟨3, [0, 1, 1, 0]⟩ ∧
     Vector.TickReceive ⟨2, [0, 1, 0, 0]⟩ ⟨3, [0, 1, 1, 0]⟩ = some ⟨2, [0, 1, 1, 0]⟩) := by
  refine ⟨?_, ?_, by decide⟩
  · unfold Vector.TickReceive
    cases hec : Vector.ErrComparableTo clk other
    · cases hpw : Vector.PairwiseInconsistent clk other
      · rw [errComparableTo_false_iff] at hec
        simp only [Bool.false_eq_true, if_false]
        constructor
        · intro h; exact absurd h (by simp)
        · intro h
          rcases h with h | h | h | h <;> first | omega | simp_all
      · simp only [Bool.false_eq_true, if_false, if_true]
        constructor
        · intro _; tauto
        · intro _; trivial
    · rw [errComparableTo_true_iff] at hec
      simp only [if_true]
      constructor
      · intro _
        rcases hec with h | h
        · exact Or.inr (Or.inl h)
        · exact Or.inl (fun hh => h hh.symm)
      · intro _; trivial
  · intro res hres
    unfold Vector.TickReceive at hres
    cases hec : Vector.ErrComparableTo clk other <;> rw [hec] at hres
    · cases hpw : Vector.PairwiseInconsistent clk other <;> rw [hpw] at hres
      · simp only [Bool.false_eq_true, if_false] at hres
        have hres2 := Option.some.inj hres
        subst hres2
        refine ⟨rfl, by simp [Vector.Length], ?_, ?_⟩
        · show (((List.range clk.vector.length).map _).getD (clk.id - 1) 0) = _
          rw [getD_map_range]
          by_cases h : clk.id - 1 < clk.vector.length
          · simp [h]
          · have hlen : clk.vector.length ≤ clk.id - 1 := Nat.le_of_not_lt h
            simp [h, Vector.comp, List.getD_eq_getElem?_getD,
              List.getElem?_eq_none hlen]
        · intro j hj hne
          show (((List.range clk.vector.length).map _).getD j 0) = _
          rw [getD_map_range]
          simp only [Vector.Length] at hj
          simp [hj, hne, logical_max_eq]
      · simp at hres
    · simp at hres

/-- Witness for C3: the successful S2 step instantiated, with the inner
hypotheses discharged at concrete input (component j = 2 of a merged clock of
length 4 with id 2 is the pointwise max). -/
theorem vector_tickReceive_spec_witness :
    Vector.TickReceive ⟨2, [0, 1, 0, 0]⟩ ⟨3, [0, 1, 1, 0]⟩ = some ⟨2, [0, 1, 1, 0]⟩ ∧
    Vector.comp ⟨2, [0, 1, 1, 0]⟩ 2 =
      max (Vector.comp ⟨2, [0, 1, 0, 0]⟩ 2) (Vector.comp ⟨3, [0, 1, 1, 0]⟩ 2) :=
  ⟨by decide,
   ((vector_tickReceive_spec ⟨2, [0, 1, 0, 0]⟩ ⟨3, [0, 1, 1, 0]⟩).2.1
      ⟨2, [0, 1, 1, 0]⟩ (by decide)).2.2.2 2 (by decide) (by decide)⟩

/-- Counterexample to C5 as stated: the clocks a = (id 1, [1,1]) and
b = (id 2, [1,1]) have equal nonzero length, different ids and are pairwise
consistent, yet BOTH a.LessThan(b) and b.LessThan(a) return true, so more
than one of the three predicates holds. -/
theorem vector_lessThan_both_directions_concrete :
    Vector.Length (Vector.Clock.mk 1 [1, 1]) = Vector.Length (Vector.Clock.mk 2 [1, 1]) ∧
    Vector.Length (Vector.Clock.mk 1 [1, 1]) ≠ 0 ∧
    (Vector.Clock.mk 1 [1, 1]).id ≠ (Vector.Clock.mk 2 [1, 1]).id ∧
    Vector.PairwiseInconsistent (Vector.Clock.mk 1 [1, 1]) (Vector.Clock.mk 2 [1, 1]) = false ∧
    Vector.LessThan (Vector.Clock.mk 1 [1, 1]) (Vector.Clock.mk 2 [1, 1]) = true ∧
    Vector.LessThan (Vector.Clock.mk 2 [1, 1]) (Vector.Clock.mk 1 [1, 1]) = true := by
  decide

/-- C5 amended: for pairwise-consistent clocks of equal nonzero length with
different ids, Concurrent excludes each direction of LessThan (at most one of
{a.LessThan(b), a.Concurrent(b)} and at most one of {b.LessThan(a),
a.Concurrent(b)} holds), but the two LessThan directions may hold
simultaneously. -/
theorem vector_concurrent_excludes_lessThan (a b : Vector.Clock)
    (hlen : Vector.Length a = Vector.Length b) (hn0 : Vector.Length a ≠ 0)
    (hid : a.id ≠ b.id) (hcons : Vector.PairwiseInconsistent a b = false) :
    ¬(Vector.LessThan a b = true ∧ Vector.Concurrent a b = true) ∧
    ¬(Vector.LessThan b a = true ∧ Vector.Concurrent a b = true) := by
  have hec : Vector.ErrComparableTo a b = false :=
    (errComparableTo_false_iff a b).mpr ⟨hn0, hlen.symm⟩
  have hecb : Vector.ErrComparableTo b a = false :=
    (errComparableTo_false_iff b a).mpr ⟨fun h => hn0 (hlen.trans h), hlen⟩
  have hconsb : Vector.PairwiseInconsistent b a = false :=
    (pairwiseInconsistent_symm a b) ▸ hcons
  constructor
  · rintro ⟨h1, h2⟩
    unfold Vector.LessThan at h1
    unfold Vector.Concurrent at h2
    rw [hec, hcons] at h1
    rw [hec, hcons] at h2
    simp only [Bool.false_eq_true, if_false, beq_iff_eq, hid, Bool.and_eq_true,
      decide_eq_true_eq] at h1 h2
    rw [Logical.cmp_le_zero_iff] at h1
    rw [Logical.cmp_pos_iff, Logical.cmp_pos_iff] at h2
    omega
  · rintro ⟨h1, h2⟩
    unfold Vector.LessThan at h1
    unfold Vector.Concurrent at h2
    rw [hecb, hconsb] at h1
    rw [hec, hcons] at h2
    simp only [Bool.false_eq_true, if_false, beq_iff_eq, hid, Ne.symm hid,
      Bool.and_eq_true, decide_eq_true_eq] at h1 h2
    rw [Logical.cmp_le_zero_iff] at h1
    rw [Logical.cmp_pos_iff, Logical.cmp_pos_iff] at h2
    omega

/-- Witness for the amended C5: two concurrent clocks (ids 1 and 3, n = 3,
each ticked once) satisfy all hypotheses, and neither LessThan direction can
hold together with Concurrent. -/
theorem vector_concurrent_excludes_lessThan_witness :
    Vector.PairwiseInconsistent (Vector.Clock.mk 1 [1, 0, 0]) (Vector.Clock.mk 3 [0, 0, 1]) = false ∧
    ¬(Vector.LessThan (Vector.Clock.mk 1 [1, 0, 0]) (Vector.Clock.mk 3 [0, 0, 1]) = true ∧
      Vector.Concurrent (Vector.Clock.mk 1 [1, 0, 0]) (Vector.Clock.mk 3 [0, 0, 1]) = true) :=
  ⟨by decide,
   (vector_concurrent_excludes_lessThan (Vector.Clock.mk 1 [1, 0, 0])
      (Vector.Clock.mk 3 [0, 0, 1]) (by decide) (by decide) (by decide) (by decide)).1⟩

namespace Logical

/-- The digit alphabet of math/big: 0-9, then lowercase a-z for 10-35, then
uppercase A-Z for 36-61. -/
def digitChar (d : Nat) : Char :=
  if d < 10 then Char.ofNat (48 + d)
  else if d < 36 then Char.ofNat (97 + (d - 10))
  else Char.ofNat (65 + (d - 36))

/-- logical.Clock.Text (via big.Int.Text): big-endian digit string of the
clock value in the given base, "0" for the zero value.  Go strings are
embedded as `List Char`. -/
def Text (clk : Nat) (base : Nat) : List Char :=
  if clk = 0 then [Char.ofNat 48]
  else (Nat.digits base clk).reverse.map digitChar

/-- Digit value of one character under the conventions of big.Int.SetString:
0-9 digits; for bases up to 36 letters are case-insensitive (both map to
10-35); for bases above 36 lowercase maps to 10-35 and uppercase to 36-61;
any value not below the base (or a non-digit character) fails. -/
def digitVal (base : Nat) (c : Char) : Option Nat :=
  let v : Nat :=
    if 48 ≤ c.toNat ∧ c.toNat ≤ 57 then c.toNat - 48
    else if 97 ≤ c.toNat ∧ c.toNat ≤ 122 then c.toNat - 97 + 10
    else if 65 ≤ c.toNat ∧ c.toNat ≤ 90 then
      (if base ≤ 36 then c.toNat - 65 + 10 else c.toNat - 65 + 36)
    else 62
  if v < base then some v else none

/-- The digit-scanning loop of big.Int.SetString: consume characters left to
right, accumulating acc*base + digit, failing on the first bad character. -/
def parseDigits (base : Nat) (acc : Nat) : List Char → Option Nat
  | [] => some acc
  | c :: rest =>
      match digitVal base c with
      | none => none
      | some d => parseDigits base (acc * base + d) rest

/-- logical.Clock.SetString (src/logical/logicalClock.go:61-68 over
big.Int.SetString): parses a non-empty digit string in the given base; `none`
models a failed parse, which leaves the Go clock unchanged.  The wrapper
additionally rejects negative values, so the embedding parses unsigned digit
strings into `Nat`. -/
def SetString (s : List Char) (base : Nat) : Option Nat :=
  if s = [] then none else parseDigits base 0 s

theorem digitVal_digitChar (b : Nat) (hb : b ≤ 62) (d : Nat) (hd : d < b) :
    digitVal b (digitChar d) = some d := by
  revert d
  revert b
  decide

theorem foldl_digits_eq_ofDigits (b : Nat) (l : List Nat) (acc : Nat) :
    l.foldl (fun a d => a * b + d) acc = acc * b ^ l.length + Nat.ofDigits b l.reverse := by
  induction l generalizing acc with
  | nil => simp
  | cons d t ih =>
      rw [List.foldl_cons, ih, List.reverse_cons, Nat.ofDigits_append]
      simp [Nat.ofDigits_singleton, List.length_reverse, pow_succ]
      ring

theorem parseDigits_map_digitChar (b : Nat) (hb : b ≤ 62) (l : List Nat)
    (hl : ∀ d ∈ l, d < b) (acc : Nat) :
    parseDigits b acc (l.map digitChar) = some (l.foldl (fun a d => a * b + d) acc) := by
  induction l generalizing acc with
  | nil => rfl
  | cons d t ih =>
      have hd : d < b := hl d (List.mem_cons_self d t)
      have ht : ∀ x ∈ t, x < b := fun x hx => hl x (List.mem_cons_of_mem d hx)
      simp only [List.map_cons, parseDigits, digitVal_digitChar b hb d hd,
        List.foldl_cons]
      exact ih ht _

theorem setString_text_roundtrip (v b : Nat) (hb1 : 2 ≤ b) (hb2 : b ≤ 62) :
    SetString (Text v b) b = some v := by
  by_cases hv : v = 0
  · subst hv
    have h48 : (Char.ofNat 48).toNat = 48 := rfl
    have h0 : digitVal b (Char.ofNat 48) = some 0 := by
      unfold digitVal
      rw [h48]
      norm_num
      exact fun hb0 => absurd hb0 (by omega)
    simp [Text, SetString, parseDigits, h0]
  · have hnil : Nat.digits b v ≠ [] := Nat.digits_ne_nil_iff_ne_zero.mpr hv
    have hd : ∀ d ∈ (Nat.digits b v).reverse, d < b := fun d hdm =>
      Nat.digits_lt_base (by omega) (List.mem_reverse.mp hdm)
    have hne : Text v b ≠ [] := by
      simp [Text, hv, hnil]
    rw [SetString, if_neg hne, Text, if_neg hv,
      parseDigits_map_digitChar b hb2 _ hd,
      foldl_digits_eq_ofDigits, List.reverse_reverse, Nat.ofDigits_digits]
    norm_num

end Logical

namespace Vector

/-- vector.Timestamp (src/vector/vectorClock.go:49-52): wire form of a clock,
an id plus a vector of digit strings (strings are `List Char`). -/
structure Timestamp where
  Id : Nat
  Vector : List (List Char)
deriving DecidableEq, Repr

/-- vector.Clock.Timestamp (src/vector/vectorClock.go:282-291): renders every
component in the given base. -/
def Clock.Timestamp (clk : Clock) (base : Nat) : Timestamp :=
  { Id := clk.id, Vector := clk.vector.map (fun v => Logical.Text v base) }

/-- The component-parsing loop of vector.Timestamp.ClockBase: parses every
digit string, failing on the first component that does not parse. -/
def parseVector (base : Nat) : List (List Char) → Option (List Nat)
  | [] => some []
  | s :: rest =>
      match Logical.SetString s base with
      | none => none
      | some v =>
          match parseVector base rest with
          | none => none
          | some vs => some (v :: vs)

/-- vector.Timestamp.ClockBase (src/vector/vectorClock.go:298-318): validates
1 <= id <= length(vector) and parses every component in the given base;
`none` models the non-nil error return. -/
def ClockBase (ts : Timestamp) (base : Nat) : Option Clock :=
  if 1 ≤ ts.Id ∧ ts.Id ≤ ts.Vector.length then
    match parseVector base ts.Vector with
    | none => none
    | some v => some { id := ts.Id, vector := v }
  else none

theorem parseVector_map_text (base : Nat) (hb1 : 2 ≤ base) (hb2 : base ≤ 62)
    (l : List Nat) :
    parseVector base (l.map (fun v => Logical.Text v base)) = some l := by
  induction l with
  | nil => rfl
  | cons v t ih =>
      simp only [List.map_cons, parseVector,
        Logical.setString_text_roundtrip v base hb1 hb2, ih]

end Vector

/-- C4: for a clock with 1 <= id <= Length (ensured by the builder and every
decode) and any admissible base 2 <= b <= MaxBase = 62, ClockBase applied to
the Timestamp rendered by Clock.Timestamp succeeds and reproduces the clock:
same id and every component numerically equal. -/
theorem timestamp_clockBase_roundtrip (c : Vector.Clock) (b : Nat)
    (hid1 : 1 ≤ c.id) (hid2 : c.id ≤ Vector.Length c)
    (hb1 : 2 ≤ b) (hb2 : b ≤ Logical.MaxBase) :
    Vector.ClockBase (Vector.Clock.Timestamp c b) b = some c := by
  have hb2n : b ≤ 62 := hb2
  unfold Vector.ClockBase Vector.Clock.Timestamp
  rw [if_pos (by simpa [Vector.Length] using And.intro hid1 hid2)]
  rw [Vector.parseVector_map_text b hb1 hb2n c.vector]

/-- Witness for C4: the clock (id 1, [9, 10, 11, 12]) of the repository's
ExampleTimestamp_ClockBase round-trips through base 10. -/
theorem timestamp_clockBase_roundtrip_witness :
    Vector.ClockBase (Vector.Clock.Timestamp ⟨1, [9, 10, 11, 12]⟩ 10) 10 =
      some ⟨1, [9, 10, 11, 12]⟩ :=
  timestamp_clockBase_roundtrip ⟨1, [9, 10, 11, 12]⟩ 10 (by decide) (by decide)
    (by decide) (by decide)

namespace Vector

/-- vector.Message (src/vector/vectorClock.go:57-60): content plus wire
timestamp. -/
structure Message where
  Content : List Char
  Timestamp : Timestamp
deriving DecidableEq, Repr

/-- A *Message as the receptacle sees it: the pointed-to value plus a `tag`
modelling the Go pointer identity (the received map is keyed on the
pointer). -/
structure MsgRef where
  tag : Nat
  msg : Message
deriving DecidableEq, Repr

/-- vector.MessageReceptacle (src/vector/vectorClock.go:87-90): a length-n
counter of logical clocks plus the received-but-undelivered messages with
their decoded clocks.  The Go map is embedded as a list; its order stands for
the map iteration order, which every Deliverables call may permute. -/
structure MessageReceptacle where
  counter : List Nat
  received : List (MsgRef × Clock)
deriving DecidableEq, Repr

/-- vector.NewMessageReceptacle (src/vector/vectorClock.go:96-104) for n ≥ 0:
zeroed counter, empty received set. -/
def NewMessageReceptacle (n : Nat) : MessageReceptacle :=
  ⟨List.replicate n 0, []⟩

/-- vector.MessageReceptacle.Receive (src/vector/vectorClock.go:121-137):
rejects a timestamp whose length differs from the receptacle's, a timestamp
that does not decode, or a message already present (by pointer identity);
otherwise stores the (message, decoded clock) pair.  The Bool is true iff the
Go method returns a non-nil error (in which case the receptacle is
unchanged). -/
def Receive (rcp : MessageReceptacle) (m : MsgRef) : MessageReceptacle × Bool :=
  if rcp.counter.length ≠ m.msg.Timestamp.Vector.length then (rcp, true)
  else
    match ClockBase m.msg.Timestamp Logical.MaxBase with
    | none => (rcp, true)
    | some ts =>
        if rcp.received.any (fun p => p.1.tag == m.tag) then (rcp, true)
        else ({ rcp with received := rcp.received ++ [(m, ts)] }, false)

/-- Result of examining one pending message, mirroring the effect of
vector.MessageReceptacle.deliver on the receptacle and the delivery slice:
the new counter, whether the message was deleted from the received set,
whether it was appended to the delivery, and whether the error was
returned. -/
structure DeliverResult where
  counter : List Nat
  removed : Bool
  delivered : Bool
  isErr : Bool
deriving DecidableEq, Repr

/-- vector.MessageReceptacle.deliver (src/vector/vectorClock.go:185-214): the
release test for one pending message with decoded timestamp ts.  The message
itself only matters for the bookkeeping handled by the caller, so the
embedding takes the counter and ts. -/
def deliver (counter : List Nat) (ts : Clock) : DeliverResult :=
  let id := ts.id
  let noUndeliveredFromProcess : Bool :=
    decide (Logical.CmpOffset (counter.getD (id - 1) 0) 1 (comp ts (id - 1)) = 0)
  let noPriorFromOtherProcesses : Bool :=
    (List.range counter.length).all (fun oIdx =>
      !(decide (oIdx + 1 ≠ id) &&
        decide (Logical.Cmp (counter.getD oIdx 0) (comp ts oIdx) < 0)))
  if noUndeliveredFromProcess && noPriorFromOtherProcesses then
    if decide (0 < Logical.Cmp (counter.getD (id - 1) 0) (comp ts (id - 1))) then
      { counter := counter, removed := true, delivered := false, isErr := true }
    else
      { counter := counter.set (id - 1) (comp ts (id - 1)),
        removed := true, delivered := true, isErr := false }
  else
    { counter := counter, removed := false, delivered := false, isErr := false }

/-- The release predicate of the spec for a pending message with decoded
timestamp ts against a receptacle counter: gap-free from the sender
(counter[s] + 1 = t.v[s]) and no outstanding prerequisite from any other
process (counter[j] ≥ t.v[j] for every j ≠ s); indices are 0-based slice
indices, so process j occupies slot j-1. -/
def ReleaseCond (counter : List Nat) (ts : Clock) : Prop :=
  counter.getD (ts.id - 1) 0 + 1 = comp ts (ts.id - 1) ∧
  ∀ j, j < counter.length → j ≠ ts.id - 1 → comp ts j ≤ counter.getD j 0

instance (counter : List Nat) (ts : Clock) : Decidable (ReleaseCond counter ts) := by
  unfold ReleaseCond
  infer_instance

theorem deliver_spec (counter : List Nat) (ts : Clock) (hid : 1 ≤ ts.id) :
    ((deliver counter ts).delivered = true ↔ ReleaseCond counter ts) ∧
    (ReleaseCond counter ts →
      deliver counter ts =
        { counter := counter.set (ts.id - 1) (comp ts (ts.id - 1)),
          removed := true, delivered := true, isErr := false }) ∧
    (¬ReleaseCond counter ts →
      deliver counter ts =
        { counter := counter, removed := false, delivered := false, isErr := false }) := by
  have hguard :
      ((decide (Logical.CmpOffset (counter.getD (ts.id - 1) 0) 1 (comp ts (ts.id - 1)) = 0) &&
        (List.range counter.length).all (fun oIdx =>
          !(decide (oIdx + 1 ≠ ts.id) &&
            decide (Logical.Cmp (counter.getD oIdx 0) (comp ts oIdx) < 0)))) = true)
        ↔ ReleaseCond counter ts := by
    rw [Bool.and_eq_true, decide_eq_true_eq, Logical.cmpOffset_one_eq_zero_iff,
      List.all_eq_true]
    unfold ReleaseCond
    constructor
    · rintro ⟨h1, h2⟩
      refine ⟨h1, fun j hj hne => ?_⟩
      have := h2 j (List.mem_range.mpr hj)
      simp only [Bool.not_eq_true', Bool.and_eq_false_iff, decide_eq_false_iff_not,
        not_not, decide_eq_true_eq, not_lt, Logical.cmp_lt_zero_iff] at this
      rcases this with h | h <;> omega
    · rintro ⟨h1, h2⟩
      refine ⟨h1, fun j hj => ?_⟩
      have hjr := List.mem_range.mp hj
      by_cases hje : j = ts.id - 1
      · subst hje
        simp [Nat.sub_add_cancel hid]
      · have := h2 j hjr hje
        simp only [Bool.not_eq_true', Bool.and_eq_false_iff, decide_eq_false_iff_not,
          not_lt, decide_eq_true_eq, Logical.cmp_lt_zero_iff]
        right
        omega
  refine ⟨?_, ?_, ?_⟩
  · unfold deliver
    by_cases hrc : ReleaseCond counter ts
    · rw [if_pos (hguard.mpr hrc)]
      have hne : ¬(0 < Logical.Cmp (counter.getD (ts.id - 1) 0) (comp ts (ts.id - 1))) := by
        rw [Logical.cmp_pos_iff]
        have := hrc.1
        omega
      rw [if_neg (by simpa using hne)]
      simpa using hrc
    · rw [if_neg (fun h => hrc (hguard.mp h))]
      simpa using hrc
  · intro hrc
    unfold deliver
    rw [if_pos (hguard.mpr hrc)]
    have hne : ¬(0 < Logical.Cmp (counter.getD (ts.id - 1) 0) (comp ts (ts.id - 1))) := by
      rw [Logical.cmp_pos_iff]
      have := hrc.1
      omega
    rw [if_neg (by simpa using hne)]
  · intro hrc
    unfold deliver
    rw [if_neg (fun h => hrc (hguard.mp h))]

theorem deliver_isErr_false (counter : List Nat) (ts : Clock) :
    (deliver counter ts).isErr = false := by
  unfold deliver
  dsimp only
  split
  · rename_i hguard
    rw [Bool.and_eq_true, decide_eq_true_eq, Logical.cmpOffset_one_eq_zero_iff] at hguard
    rw [if_neg]
    simp only [decide_eq_true_eq, Logical.cmp_pos_iff, not_lt]
    omega
  · rfl

end Vector

/-- C1: for a receptacle of length n and a pending message from sender
s = t.id with decoded timestamp t (well-formed as Receive guarantees:
timestamp length n, 1 ≤ s ≤ n), deliver releases the message exactly when
counter[s] + 1 = t.v[s] and counter[j] ≥ t.v[j] for every j ≠ s; on release
it sets counter[s] to t.v[s], removes the message from the received set and
appends it to the delivery (delivered = true), with no error; when either
condition fails the message is kept and the counter is entirely unchanged. -/
theorem deliver_release_spec (counter : List Nat) (t : Vector.Clock) (n : Nat)
    (hc : counter.length = n) (ht : t.vector.length = n)
    (hid1 : 1 ≤ t.id) (hid2 : t.id ≤ n) :
    ((Vector.deliver counter t).delivered = true ↔ Vector.ReleaseCond counter t) ∧
    (Vector.ReleaseCond counter t →
      Vector.deliver counter t =
        { counter := counter.set (t.id - 1) (Vector.comp t (t.id - 1)),
          removed := true, delivered := true, isErr := false }) ∧
    (¬Vector.ReleaseCond counter t →
      Vector.deliver counter t =
        { counter := counter, removed := false, delivered := false, isErr := false }) :=
  Vector.deliver_spec counter t hid1

/-- Witness for C1: a length-2 receptacle with zero counter releases the
first message of process 1 (timestamp [1,0]) and commits counter[1] to 1. -/
theorem deliver_release_spec_witness :
    Vector.ReleaseCond [0, 0] ⟨1, [1, 0]⟩ ∧
    Vector.deliver [0, 0] ⟨1, [1, 0]⟩ =
      { counter := [1, 0], removed := true, delivered := true, isErr := false } :=
  ⟨by decide,
   (deliver_release_spec [0, 0] ⟨1, [1, 0]⟩ 2 rfl rfl (by decide) (by decide)).2.1
     (by decide)⟩

namespace Vector

/-- The iteration of vector.MessageReceptacle.Deliverables
(src/vector/vectorClock.go:167-176) over one snapshot of the map in a given
iteration order: each pending entry is examined once with the current
counter; a delivered or offending entry leaves the received set, and on an
error the iteration stops, keeping the unexamined entries and the deliveries
gathered so far (the delivery carries the decoded clock alongside each
message for specification purposes). -/
def runDeliv (counter : List Nat) : List (MsgRef × Clock) →
    List Nat × List (MsgRef × Clock) × List (MsgRef × Clock) × Bool
  | [] => (counter, [], [], false)
  | (m, ts) :: rest =>
      let r := deliver counter ts
      if r.isErr then (r.counter, rest, [], true)
      else
        let o := runDeliv r.counter rest
        (o.1, (if r.removed then o.2.1 else (m, ts) :: o.2.1),
          (if r.delivered then (m, ts) :: o.2.2.1 else o.2.2.1), o.2.2.2)

/-- vector.MessageReceptacle.Deliverables on a receptacle whose received list
is read in its stored order: new receptacle state, the delivery slice in
append order, and whether an error (with offender) was returned. -/
def Deliverables (rcp : MessageReceptacle) :
    MessageReceptacle × List (MsgRef × Clock) × Bool :=
  let o := runDeliv rcp.counter rcp.received
  (⟨o.1, o.2.1⟩, o.2.2.1, o.2.2.2)

end Vector

/-- Concrete pending entries for the receptacle evaluation below: messages of
process 1 with timestamps [1], [2] and again [1] (decoded clocks alongside). -/
def c6entry1 : Vector.MsgRef × Vector.Clock := (⟨1, ⟨[], ⟨1, [['1']]⟩⟩⟩, ⟨1, [1]⟩)

def c6entry2 : Vector.MsgRef × Vector.Clock := (⟨2, ⟨[], ⟨1, [['2']]⟩⟩⟩, ⟨1, [2]⟩)

def c6entry3 : Vector.MsgRef × Vector.Clock := (⟨3, ⟨[], ⟨1, [['1']]⟩⟩⟩, ⟨1, [1]⟩)

/-- C6: the timestamp-below-counter error branch of deliver is dead code: its
guard counter[s] > t.v[s] is tested only under counter[s] + 1 = t.v[s], which
contradicts it.  Concretely (n = 1): after receiving and delivering messages
[1] and [2] of process 1 the counter is [2]; a further pending message with
timestamp [1] satisfies counter[1] = 2 > 1 = t.v[1], yet Deliverables neither
removes it nor returns an error — it stays pending with the counter
unchanged, against the claimed removal-plus-error behaviour.  (The first
conjunct shows the error flag is impossible for every input.) -/
theorem deliverables_below_counter_no_error :
    (∀ counter ts, (Vector.deliver counter ts).isErr = false) ∧
    Vector.runDeliv [0] [c6entry1, c6entry2] = ([2], [], [c6entry1, c6entry2], false) ∧
    Vector.comp c6entry3.2 0 < 2 ∧
    Vector.runDeliv [2] [c6entry3] = ([2], [c6entry3], [], false) := by
  refine ⟨fun counter ts => Vector.deliver_isErr_false counter ts, by decide, by decide, by decide⟩

namespace Vector

/-- One step of a monitor's use of a receptacle: either vector
MessageReceptacle.Receive of a message, or a Deliverables call; the latter
carries the order in which the Go map iteration enumerates the pending
entries of that call (any permutation of the received set). -/
inductive REv where
  | recv (m : MsgRef)
  | deliv (ord : List (MsgRef × Clock))
deriving DecidableEq, Repr

/-- Monitor-visible state: the receptacle plus the concatenation of the
delivery slices of all Deliverables calls so far. -/
structure MState where
  rcp : MessageReceptacle
  out : List (MsgRef × Clock)
deriving DecidableEq, Repr

/-- The state a fresh receptacle of length n starts in. -/
def initState (n : Nat) : MState := ⟨NewMessageReceptacle n, []⟩

/-- Applying one event to the state: a Receive updates the receptacle (an
error leaves it unchanged, as in the Go code); a Deliverables call runs the
examination loop over the given iteration order and appends its delivery
slice to the output. -/
def mstep (st : MState) : REv → MState
  | .recv m => { st with rcp := (Receive st.rcp m).1 }
  | .deliv ord =>
      let o := runDeliv st.rcp.counter ord
      { rcp := ⟨o.1, o.2.1⟩, out := st.out ++ o.2.2.1 }

/-- A trace is valid from a state when every Deliverables event enumerates
exactly the pending entries of the receptacle at its point (in any order). -/
def validFrom (st : MState) : List REv → Bool
  | [] => true
  | e :: tr =>
      (match e with
       | .recv _ => true
       | .deliv ord => decide (ord.Perm st.rcp.received)) && validFrom (mstep st e) tr

/-- Run a trace on a fresh receptacle of length n. -/
def mrun (n : Nat) (tr : List REv) : MState := tr.foldl mstep (initState n)

/-- Number of entries of sender s in a delivered or pending list. -/
def sCount (l : List (MsgRef × Clock)) (s : Nat) : Nat :=
  l.countP (fun p => p.2.id == s)

/-- Well-formedness of a stored (message, decoded clock) entry of a
receptacle of length n, as established by Receive: sender id in 1..n and a
length-n decoded vector. -/
def WfEntry (n : Nat) (p : MsgRef × Clock) : Prop :=
  1 ≤ p.2.id ∧ p.2.id ≤ n ∧ p.2.vector.length = n

/-- The per-position record of the delivery output: each delivered entry was
committed when exactly t.v[s] - 1 messages of its sender s and at least
t.v[j] messages of every other sender j had already been delivered (the
prefix before its position). -/
def OutOk (n : Nat) (out : List (MsgRef × Clock)) : Prop :=
  ∀ i p, out[i]? = some p →
    WfEntry n p ∧
    sCount (out.take i) p.2.id + 1 = comp p.2 (p.2.id - 1) ∧
    ∀ j, 1 ≤ j → j ≤ n → j ≠ p.2.id → comp p.2 (j - 1) ≤ sCount (out.take i) j

/-- The receptacle invariant maintained by every valid trace: the counter has
length n, each counter slot j holds the number of delivered messages of
sender j, every pending entry is well-formed, and the output satisfies
OutOk. -/
def Inv (n : Nat) (st : MState) : Prop :=
  st.rcp.counter.length = n ∧
  (∀ j, 1 ≤ j → j ≤ n → st.rcp.counter.getD (j - 1) 0 = sCount st.out j) ∧
  (∀ p ∈ st.rcp.received, WfEntry n p) ∧
  OutOk n st.out

end Vector

theorem getD_replicate_zero (n i : Nat) : (List.replicate n (0 : Nat)).getD i 0 = 0 := by
  by_cases h : i < n
  · simp [List.getD_eq_getElem?_getD, List.getElem?_replicate, h]
  · have hlen : (List.replicate n (0 : Nat)).length ≤ i := by
      simpa using Nat.le_of_not_lt h
    simp [List.getD_eq_getElem?_getD, List.getElem?_eq_none hlen]

theorem parseVector_length (b : Nat) (l : List (List Char)) (v : List Nat)
    (h : Vector.parseVector b l = some v) : v.length = l.length := by
  induction l generalizing v with
  | nil =>
      unfold Vector.parseVector at h
      simp at h
      subst h
      rfl
  | cons s t ih =>
      unfold Vector.parseVector at h
      cases hs : Logical.SetString s b with
      | none => rw [hs] at h; exact absurd h (by simp)
      | some x =>
          rw [hs] at h
          cases hr : Vector.parseVector b t with
          | none => rw [hr] at h; exact absurd h (by simp)
          | some xs =>
              rw [hr] at h
              have := Option.some.inj h
              subst this
              simpa using ih xs hr

theorem clockBase_some_wf (ts : Vector.Timestamp) (b : Nat) (c : Vector.Clock)
    (h : Vector.ClockBase ts b = some c) :
    c.id = ts.Id ∧ c.vector.length = ts.Vector.length ∧
    1 ≤ ts.Id ∧ ts.Id ≤ ts.Vector.length := by
  unfold Vector.ClockBase at h
  by_cases hid : 1 ≤ ts.Id ∧ ts.Id ≤ ts.Vector.length
  · rw [if_pos hid] at h
    cases hpv : Vector.parseVector b ts.Vector with
    | none => rw [hpv] at h; exact absurd h (by simp)
    | some v =>
        rw [hpv] at h
        have hc := Option.some.inj h
        subst hc
        exact ⟨rfl, parseVector_length b ts.Vector v hpv, hid.1, hid.2⟩
  · rw [if_neg hid] at h
    exact absurd h (by simp)

theorem receive_inv (n : Nat) (st : Vector.MState) (m : Vector.MsgRef)
    (h : Vector.Inv n st) : Vector.Inv n (Vector.mstep st (.recv m)) := by
  obtain ⟨h1, h2, h3, h4⟩ := h
  show Vector.Inv n { st with rcp := (Vector.Receive st.rcp m).1 }
  unfold Vector.Receive
  by_cases hl : st.rcp.counter.length ≠ m.msg.Timestamp.Vector.length
  · rw [if_pos hl]
    exact ⟨h1, h2, h3, h4⟩
  · rw [if_neg hl]
    cases hcb : Vector.ClockBase m.msg.Timestamp Logical.MaxBase with
    | none => exact ⟨h1, h2, h3, h4⟩
    | some ts =>
        dsimp only
        by_cases hdup : st.rcp.received.any (fun p => p.1.tag == m.tag) = true
        · rw [if_pos hdup]
          exact ⟨h1, h2, h3, h4⟩
        · rw [if_neg hdup]
          refine ⟨h1, h2, ?_, h4⟩
          intro p hp
          rcases List.mem_append.mp hp with hp | hp
          · exact h3 p hp
          · have hpe : p = (m, ts) := by simpa using hp
            subst hpe
            obtain ⟨hcid, hclen, hts1, hts2⟩ := clockBase_some_wf _ _ _ hcb
            unfold Vector.WfEntry
            dsimp only
            omega

theorem getD_set_zero (l : List Nat) (k i x : Nat) :
    (l.set k x).getD i 0 = if i = k ∧ k < l.length then x else l.getD i 0 := by
  by_cases h : i = k ∧ k < l.length
  · rw [if_pos h]
    simp [List.getD_eq_getElem?_getD, List.getElem?_set, h.1, h.2]
  · rw [if_neg h]
    rw [List.getD_eq_getElem?_getD, List.getD_eq_getElem?_getD, List.getElem?_set]
    by_cases hk : k = i
    · have hkl : ¬k < l.length := fun hl => h ⟨hk.symm, hl⟩
      rw [if_pos hk, if_neg hkl]
      have : l.length ≤ i := by omega
      rw [List.getElem?_eq_none this]
    · rw [if_neg hk]

theorem sCount_append (l1 l2 : List (Vector.MsgRef × Vector.Clock)) (s : Nat) :
    Vector.sCount (l1 ++ l2) s = Vector.sCount l1 s + Vector.sCount l2 s := by
  unfold Vector.sCount
  exact List.countP_append _ l1 l2

theorem sCount_single (p : Vector.MsgRef × Vector.Clock) (s : Nat) :
    Vector.sCount [p] s = if p.2.id = s then 1 else 0 := by
  unfold Vector.sCount
  by_cases h : p.2.id = s <;> simp [List.countP_cons, h]

theorem outOk_append (n : Nat) (out : List (Vector.MsgRef × Vector.Clock))
    (e : Vector.MsgRef × Vector.Clock) (h : Vector.OutOk n out)
    (hwf : Vector.WfEntry n e)
    (h1 : Vector.sCount out e.2.id + 1 = Vector.comp e.2 (e.2.id - 1))
    (h2 : ∀ j, 1 ≤ j → j ≤ n → j ≠ e.2.id →
      Vector.comp e.2 (j - 1) ≤ Vector.sCount out j) :
    Vector.OutOk n (out ++ [e]) := by
  intro i p hp
  rcases Nat.lt_trichotomy i out.length with hi | hi | hi
  · rw [List.getElem?_append_left hi] at hp
    have htake : (out ++ [e]).take i = out.take i := by
      rw [List.take_append_eq_append_take]
      simp [Nat.sub_eq_zero_of_le (le_of_lt hi)]
    rw [htake]
    exact h i p hp
  · subst hi
    rw [List.getElem?_concat_length] at hp
    have hpe := Option.some.inj hp
    subst hpe
    rw [List.take_left]
    exact ⟨hwf, h1, h2⟩
  · have hlen : (out ++ [e]).length ≤ i := by
      simp only [List.length_append, List.length_cons, List.length_nil]
      omega
    rw [List.getElem?_eq_none hlen] at hp
    exact absurd hp (by simp)

theorem runDeliv_inv (n : Nat) (todo : List (Vector.MsgRef × Vector.Clock)) :
    ∀ (counter : List Nat) (out : List (Vector.MsgRef × Vector.Clock)),
      counter.length = n →
      (∀ j, 1 ≤ j → j ≤ n → counter.getD (j - 1) 0 = Vector.sCount out j) →
      (∀ p ∈ todo, Vector.WfEntry n p) →
      Vector.OutOk n out →
      (Vector.runDeliv counter todo).1.length = n ∧
      (∀ j, 1 ≤ j → j ≤ n →
        (Vector.runDeliv counter todo).1.getD (j - 1) 0 =
          Vector.sCount (out ++ (Vector.runDeliv counter todo).2.2.1) j) ∧
      (∀ p ∈ (Vector.runDeliv counter todo).2.1, p ∈ todo) ∧
      Vector.OutOk n (out ++ (Vector.runDeliv counter todo).2.2.1) := by
  induction todo with
  | nil =>
      intro counter out hc hcnt hwf hout
      refine ⟨hc, ?_, ?_, ?_⟩
      · intro j h1 h2
        simpa [Vector.runDeliv] using hcnt j h1 h2
      · intro p hp
        simp [Vector.runDeliv] at hp
      · simpa [Vector.runDeliv] using hout
  | cons hd rest ih =>
      obtain ⟨m, ts⟩ := hd
      intro counter out hc hcnt hwf hout
      have hwfhd : Vector.WfEntry n (m, ts) := hwf _ (List.mem_cons_self _ _)
      have hid1 : 1 ≤ ts.id := hwfhd.1
      have hid2 : ts.id ≤ n := hwfhd.2.1
      have hwfr : ∀ p ∈ rest, Vector.WfEntry n p :=
        fun p hp => hwf p (List.mem_cons_of_mem _ hp)
      by_cases hrc : Vector.ReleaseCond counter ts
      · have hdel := (Vector.deliver_spec counter ts hid1).2.1 hrc
        have hc2 : (counter.set (ts.id - 1) (Vector.comp ts (ts.id - 1))).length = n := by
          simpa using hc
        have hcnt2 : ∀ j, 1 ≤ j → j ≤ n →
            (counter.set (ts.id - 1) (Vector.comp ts (ts.id - 1))).getD (j - 1) 0 =
              Vector.sCount (out ++ [(m, ts)]) j := by
          intro j h1 h2
          rw [getD_set_zero, sCount_append, sCount_single]
          by_cases hj : j = ts.id
          · subst hj
            have hcond : ts.id - 1 = ts.id - 1 ∧ ts.id - 1 < counter.length :=
              ⟨rfl, by omega⟩
            rw [if_pos hcond]
            have hcnt1 := hcnt ts.id h1 h2
            have hr1 := hrc.1
            have hone : (if (m, ts).2.id = ts.id then 1 else 0) = 1 := if_pos rfl
            rw [hone]
            omega
          · have hcond : ¬(j - 1 = ts.id - 1 ∧ ts.id - 1 < counter.length) := by
              intro hand
              omega
            rw [if_neg hcond]
            have hcnt1 := hcnt j h1 h2
            have hzero : (if (m, ts).2.id = j then 1 else 0) = 0 :=
              if_neg (fun he => hj (he.symm))
            rw [hzero]
            omega
        have hout2 : Vector.OutOk n (out ++ [(m, ts)]) := by
          refine outOk_append n out (m, ts) hout hwfhd ?_ ?_
          · have := hcnt ts.id hid1 hid2
            have hr1 := hrc.1
            dsimp only at *
            omega
          · intro j h1 h2 hne
            have hj1 : j - 1 < counter.length := by omega
            have hj2 : j - 1 ≠ ts.id - 1 := by
              dsimp only at hne
              omega
            have := hrc.2 (j - 1) hj1 hj2
            have hcj := hcnt j h1 h2
            dsimp only at *
            omega
        have hrest := ih (counter.set (ts.id - 1) (Vector.comp ts (ts.id - 1)))
          (out ++ [(m, ts)]) hc2 hcnt2 hwfr hout2
        obtain ⟨k1, k2, k3, k4⟩ := hrest
        have hrun : Vector.runDeliv counter ((m, ts) :: rest) =
            ((Vector.runDeliv (counter.set (ts.id - 1) (Vector.comp ts (ts.id - 1))) rest).1,
             (Vector.runDeliv (counter.set (ts.id - 1) (Vector.comp ts (ts.id - 1))) rest).2.1,
             (m, ts) :: (Vector.runDeliv (counter.set (ts.id - 1) (Vector.comp ts (ts.id - 1))) rest).2.2.1,
             (Vector.runDeliv (counter.set (ts.id - 1) (Vector.comp ts (ts.id - 1))) rest).2.2.2) := by
          rw [Vector.runDeliv, hdel]
          rfl
        rw [hrun]
        refine ⟨k1, ?_, ?_, ?_⟩
        · intro j h1 h2
          rw [List.append_cons]
          exact k2 j h1 h2
        · intro p hp
          exact List.mem_cons_of_mem _ (k3 p hp)
        · rw [List.append_cons]
          exact k4
      · have hdel := (Vector.deliver_spec counter ts hid1).2.2 hrc
        have hrest := ih counter out hc hcnt hwfr hout
        obtain ⟨k1, k2, k3, k4⟩ := hrest
        have hrun : Vector.runDeliv counter ((m, ts) :: rest) =
            ((Vector.runDeliv counter rest).1,
             (m, ts) :: (Vector.runDeliv counter rest).2.1,
             (Vector.runDeliv counter rest).2.2.1,
             (Vector.runDeliv counter rest).2.2.2) := by
          rw [Vector.runDeliv, hdel]
          rfl
        rw [hrun]
        refine ⟨k1, ?_, ?_, ?_⟩
        · intro j h1 h2
          exact k2 j h1 h2
        · intro p hp
          rcases List.mem_cons.mp hp with hp | hp
          · exact hp ▸ List.mem_cons_self _ _
          · exact List.mem_cons_of_mem _ (k3 p hp)
        · exact k4

theorem inv_init (n : Nat) : Vector.Inv n (Vector.initState n) := by
  refine ⟨by simp [Vector.initState, Vector.NewMessageReceptacle], ?_, ?_, ?_⟩
  · intro j h1 h2
    simp [Vector.initState, Vector.NewMessageReceptacle, Vector.sCount,
      getD_replicate_zero]
  · intro p hp
    simp [Vector.initState, Vector.NewMessageReceptacle] at hp
  · intro i p hp
    simp [Vector.initState] at hp

theorem deliv_inv (n : Nat) (st : Vector.MState) (ord : List (Vector.MsgRef × Vector.Clock))
    (hperm : ord.Perm st.rcp.received) (h : Vector.Inv n st) :
    Vector.Inv n (Vector.mstep st (.deliv ord)) := by
  obtain ⟨h1, h2, h3, h4⟩ := h
  have hwford : ∀ p ∈ ord, Vector.WfEntry n p :=
    fun p hp => h3 p (hperm.mem_iff.mp hp)
  obtain ⟨k1, k2, k3, k4⟩ := runDeliv_inv n ord st.rcp.counter st.out h1 h2 hwford h4
  exact ⟨k1, k2, fun p hp => hwford p (k3 p hp), k4⟩

theorem validFrom_inv (n : Nat) (tr : List Vector.REv) :
    ∀ st, Vector.Inv n st → Vector.validFrom st tr = true →
      Vector.Inv n (tr.foldl Vector.mstep st) := by
  induction tr with
  | nil => intro st h _; exact h
  | cons e tr ih =>
      intro st h hv
      rw [Vector.validFrom.eq_def, Bool.and_eq_true] at hv
      rw [List.foldl_cons]
      refine ih (Vector.mstep st e) ?_ hv.2
      cases e with
      | recv m => exact receive_inv n st m h
      | deliv ord =>
          have hp1 : decide (ord.Perm st.rcp.received) = true := hv.1
          exact deliv_inv n st ord (of_decide_eq_true hp1) h

theorem sCount_take_mono (l : List (Vector.MsgRef × Vector.Clock)) (p q s : Nat)
    (h : p ≤ q) : Vector.sCount (l.take p) s ≤ Vector.sCount (l.take q) s := by
  have hq : l.take q = l.take p ++ (l.drop p).take (q - p) := by
    rw [← List.take_add]
    congr 1
    omega
  rw [hq, sCount_append]
  omega

theorem lessThan_true_elim (a b : Vector.Clock) (h : Vector.LessThan a b = true) :
    (a.id = b.id ∧ Vector.comp a (a.id - 1) < Vector.comp b (a.id - 1)) ∨
    (a.id ≠ b.id ∧ Vector.comp a (a.id - 1) ≤ Vector.comp b (a.id - 1)) := by
  unfold Vector.LessThan at h
  by_cases hec : Vector.ErrComparableTo a b = true
  · rw [if_pos hec] at h
    exact absurd h (by simp)
  · rw [if_neg hec] at h
    by_cases hid : a.id = b.id
    · rw [if_pos (show (a.id == b.id) = true from beq_iff_eq.mpr hid)] at h
      rw [decide_eq_true_eq, Logical.cmp_lt_zero_iff] at h
      exact Or.inl ⟨hid, h⟩
    · rw [if_neg (show ¬(a.id == b.id) = true from by simpa using hid)] at h
      by_cases hpw : Vector.PairwiseInconsistent a b = true
      · rw [if_pos hpw] at h
        exact absurd h (by simp)
      · rw [if_neg hpw] at h
        rw [decide_eq_true_eq, Logical.cmp_le_zero_iff] at h
        exact Or.inr ⟨hid, h⟩

/-- C2: over any sequence of Receive and Deliverables calls on a fresh
receptacle of length n, with each Deliverables call examining the pending set
in an arbitrary iteration order (any permutation — the trace validity), if
two delivered entries satisfy LessThan (the library's happens-before on
timestamps, which under the senders-tick-on-local-and-send convention orders
exactly the causally related messages), the earlier one occupies a strictly
smaller position in the concatenation of the delivery slices.  The proof
needs no assumption on the senders beyond what Receive itself validates; the
release discipline alone forces the order. -/
theorem receptacle_causal_delivery_order (n : Nat) (tr : List Vector.REv)
    (hv : Vector.validFrom (Vector.initState n) tr = true)
    (p1 p2 : Nat) (e1 e2 : Vector.MsgRef × Vector.Clock)
    (h1 : (Vector.mrun n tr).out[p1]? = some e1)
    (h2 : (Vector.mrun n tr).out[p2]? = some e2)
    (hlt : Vector.LessThan e1.2 e2.2 = true) :
    p1 < p2 := by
  have hinv : Vector.Inv n (Vector.mrun n tr) :=
    validFrom_inv n tr (Vector.initState n) (inv_init n) hv
  obtain ⟨hc, hcnt, hwf, hout⟩ := hinv
  obtain ⟨hwf1, hA1, hB1⟩ := hout p1 e1 h1
  obtain ⟨hwf2, hA2, hB2⟩ := hout p2 e2 h2
  rcases lessThan_true_elim e1.2 e2.2 hlt with ⟨hid, hcmp⟩ | ⟨hid, hcmp⟩
  · by_contra hle
    have hpq : p2 ≤ p1 := Nat.le_of_not_lt hle
    have hmono := sCount_take_mono (Vector.mrun n tr).out p2 p1 e1.2.id hpq
    rw [← hid] at hA2
    omega
  · by_contra hle
    have hpq : p2 ≤ p1 := Nat.le_of_not_lt hle
    have hmono := sCount_take_mono (Vector.mrun n tr).out p2 p1 e1.2.id hpq
    have hpre := hB2 e1.2.id hwf1.1 hwf1.2.1 hid
    omega

/-- Concrete trace for the witness: p1's first message (timestamp [1,0]) and
p2's reply (timestamp [1,1]) received in order, then one Deliverables call
enumerating both. -/
def c2msg1 : Vector.MsgRef := ⟨1, ⟨[], ⟨1, [['1'], ['0']]⟩⟩⟩

def c2msg2 : Vector.MsgRef := ⟨2, ⟨[], ⟨2, [['1'], ['1']]⟩⟩⟩

def c2trace : List Vector.REv :=
  [.recv c2msg1, .recv c2msg2,
   .deliv [(c2msg1, ⟨1, [1, 0]⟩), (c2msg2, ⟨2, [1, 1]⟩)]]

/-- Witness for C2: on the concrete trace both messages are delivered, their
timestamps are LessThan-ordered, and the theorem places the first strictly
before the second. -/
theorem receptacle_causal_delivery_order_witness :
    Vector.validFrom (Vector.initState 2) c2trace = true ∧
    (Vector.mrun 2 c2trace).out[0]? = some (c2msg1, ⟨1, [1, 0]⟩) ∧
    (Vector.mrun 2 c2trace).out[1]? = some (c2msg2, ⟨2, [1, 1]⟩) ∧
    Vector.LessThan (Vector.Clock.mk 1 [1, 0]) (Vector.Clock.mk 2 [1, 1]) = true ∧
    (0 : Nat) < 1 :=
  ⟨by decide, by decide, by decide, by decide,
   receptacle_causal_delivery_order 2 c2trace (by decide) 0 1
     (c2msg1, ⟨1, [1, 0]⟩) (c2msg2, ⟨2, [1, 1]⟩) (by decide) (by decide) (by decide)⟩

namespace Server

/-- time.Duration constants of src/unnamed/part_003:188-205, in nanoseconds:
the heartbeat period and the window after the last timestamp from a server
for which the sender is considered alive. -/
def HEARTBEAT_INTERVAL : Int := 200000000

def ALIVE_INTERVAL : Int := 250000000

/-- strconv.Itoa: decimal digit string. -/
def Itoa (n : Nat) : List Char := Logical.Text n 10

/-- The alive command response built by handleMaster
(src/unnamed/part_003:456-489): "alive ", then every id below ID whose last
timestamp is within ALIVE_INTERVAL of now (each followed by a comma), then ID
itself, then every id above ID whose last timestamp is within
HEARTBEAT_INTERVAL of now (each preceded by a comma), then a newline.
Instants are Int nanoseconds and now.Sub(ts) is now - ts. -/
def aliveLine (ID NUM_PROCS : Nat) (stmps : List Int) (now : Int) : List Char :=
  "alive ".toList ++
  ((List.range ID).foldl (fun acc id =>
      if now - stmps.getD id 0 < ALIVE_INTERVAL then acc ++ Itoa id ++ [','] else acc) []) ++
  Itoa ID ++
  ((List.range' (ID + 1) (NUM_PROCS - (ID + 1))).foldl (fun acc id =>
      if now - stmps.getD id 0 < HEARTBEAT_INTERVAL then acc ++ [','] ++ Itoa id else acc) []) ++
  ['\x0a']

/-- server.Message (src/unnamed/part_003:229-233): sender id, real-time
timestamp, content. -/
structure Message where
  Id : Nat
  Rts : Int
  Content : List Char
deriving DecidableEq, Repr

/-- The id sequence dialed by the send loop of broadcast
(src/unnamed/part_003:541-559), started at id: each iteration first bumps id
past itself (`if id == ID { id++ }`) and then dials START_PORT + id; the loop
increment follows.  When ID = NUM_PROCS - 1 this dials the out-of-range id
NUM_PROCS once (a dial that no peer answers). -/
def bcastTargets (ID NUM_PROCS id : Nat) : List Nat :=
  if id < NUM_PROCS then
    (if id = ID then id + 1 else id) ::
      bcastTargets ID NUM_PROCS ((if id = ID then id + 1 else id) + 1)
  else []
termination_by NUM_PROCS - id
decreasing_by
  split <;> omega

/-- broadcast (src/unnamed/part_003:525-560): marshal the message once,
append the self copy to the FIFO log iff the content is non-empty, then walk
the peer ids dialing each one and writing the one encoded payload; a failed
dial is skipped silently and does not affect which ids are attempted.  The
JSON encoder is abstracted as a parameter; the result is the payload written
to every peer that accepts, the new FIFO log, and the dialed ids in order. -/
def broadcast (ID NUM_PROCS : Nat) (enc : Message → List Char)
    (fifo : List Message) (msg : Message) :
    List Char × List Message × List Nat :=
  let msgJSON := enc msg
  let fifo2 := if msg.Content.length ≠ 0 then fifo ++ [msg] else fifo
  (msgJSON, fifo2, bcastTargets ID NUM_PROCS 0)

end Server

/-- C7: the alive handler does not use ALIVE_INTERVAL for peers above the
local id — they are tested against HEARTBEAT_INTERVAL instead, contradicting
the documented meaning of ALIVE_INTERVAL.  With ID = 0, n = 2 and a last
timestamp from peer 1 that is 220ms old (inside the 250ms alive window, and
not older than one heartbeat beyond it), the response is "alive 0\x0a": peer 1
is reported dead although now - liveness[1] < ALIVE_INTERVAL. -/
theorem alive_window_asymmetric :
    Server.aliveLine 0 2 [1000000000, 780000000] 1000000000 = "alive 0\x0a".toList ∧
    (1000000000 - 780000000 : Int) < Server.ALIVE_INTERVAL ∧
    Server.aliveLine 0 2 [1000000000, 780000000] 1000000000 ≠ "alive 0,1\x0a".toList := by
  refine ⟨by decide, by decide, by decide⟩

theorem bcastTargets_ge_aux (ID N : Nat) :
    ∀ (fuel id0 : Nat), N - id0 ≤ fuel → ∀ x ∈ Server.bcastTargets ID N id0, id0 ≤ x := by
  intro fuel
  induction fuel with
  | zero =>
      intro id0 hf x hx
      rw [Server.bcastTargets, if_neg (by omega)] at hx
      simp at hx
  | succ k ih =>
      intro id0 hf x hx
      by_cases hlt : id0 < N
      · rw [Server.bcastTargets, if_pos hlt] at hx
        rcases List.mem_cons.mp hx with h | h
        · subst h; split <;> omega
        · have hrec := ih ((if id0 = ID then id0 + 1 else id0) + 1) (by split <;> omega) x h
          split at hrec <;> omega
      · rw [Server.bcastTargets, if_neg hlt] at hx
        simp at hx

theorem bcastTargets_ge (ID N id0 : Nat) :
    ∀ x ∈ Server.bcastTargets ID N id0, id0 ≤ x :=
  bcastTargets_ge_aux ID N (N - id0) id0 le_rfl

theorem bcastTargets_chain_aux (ID N : Nat) :
    ∀ (fuel id0 : Nat), N - id0 ≤ fuel →
      List.Chain' (· < ·) (Server.bcastTargets ID N id0) := by
  intro fuel
  induction fuel with
  | zero =>
      intro id0 hf
      rw [Server.bcastTargets, if_neg (by omega)]
      exact List.chain'_nil
  | succ k ih =>
      intro id0 hf
      by_cases hlt : id0 < N
      · rw [Server.bcastTargets, if_pos hlt]
        refine List.chain'_cons'.mpr ⟨?_, ih _ (by split <;> omega)⟩
        intro b hb
        have hbm := List.mem_of_mem_head? hb
        have := bcastTargets_ge ID N _ b hbm
        split at this <;> split <;> omega
      · rw [Server.bcastTargets, if_neg hlt]
        exact List.chain'_nil

theorem bcastTargets_count_aux (ID N : Nat) :
    ∀ (fuel id0 : Nat), N - id0 ≤ fuel →
      ∀ j, id0 ≤ j → j < N → j ≠ ID → (Server.bcastTargets ID N id0).count j = 1 := by
  intro fuel
  induction fuel with
  | zero =>
      intro id0 hf j h1 h2 h3
      exact absurd h2 (by omega)
  | succ k ih =>
      intro id0 hf j h1 h2 h3
      have hlt : id0 < N := by omega
      rw [Server.bcastTargets, if_pos hlt, List.count_cons]
      by_cases hj : j = (if id0 = ID then id0 + 1 else id0)
      · have hrest : (Server.bcastTargets ID N ((if id0 = ID then id0 + 1 else id0) + 1)).count j = 0 := by
          rw [List.count_eq_zero]
          intro hmem
          have := bcastTargets_ge ID N _ j hmem
          omega
        rw [hrest]
        simp [hj]
      · have hge : (if id0 = ID then id0 + 1 else id0) + 1 ≤ j := by
          split at hj <;> split <;> omega
        have hrest := ih ((if id0 = ID then id0 + 1 else id0) + 1) (by split <;> omega)
          j hge h2 h3
        rw [hrest]
        simp [Ne.symm hj]
  
theorem bcastTargets_not_self_aux (ID N : Nat) :
    ∀ (fuel id0 : Nat), N - id0 ≤ fuel → ID ∉ Server.bcastTargets ID N id0 := by
  intro fuel
  induction fuel with
  | zero =>
      intro id0 hf
      rw [Server.bcastTargets, if_neg (by omega)]
      simp
  | succ k ih =>
      intro id0 hf
      by_cases hlt : id0 < N
      · rw [Server.bcastTargets, if_pos hlt]
        intro hmem
        rcases List.mem_cons.mp hmem with h | h
        · split at h <;> omega
        · exact ih ((if id0 = ID then id0 + 1 else id0) + 1) (by split <;> omega) h
      · rw [Server.bcastTargets, if_neg hlt]
        simp

/-- C8: broadcast writes the one encoded payload (encoded once, up front),
appends the message to the FIFO log exactly when its content is non-empty,
and the dialed id sequence is strictly ascending, never contains the local
id, and contains every peer id other than the local one exactly once — so
every peer is attempted exactly once, in ascending order, independent of any
dial failures, and the loop terminates after the walk (the `id++` skip does
not double-skip; its only artefact is one extra out-of-range dial when
ID = NUM_PROCS - 1, which reaches no peer). -/
theorem broadcast_spec (ID NUM_PROCS : Nat) (enc : Server.Message → List Char)
    (fifo : List Server.Message) (msg : Server.Message) (hid : ID < NUM_PROCS) :
    (Server.broadcast ID NUM_PROCS enc fifo msg).1 = enc msg ∧
    ((Server.broadcast ID NUM_PROCS enc fifo msg).2.1 = fifo ++ [msg] ↔
      msg.Content.length ≠ 0) ∧
    ((Server.broadcast ID NUM_PROCS enc fifo msg).2.1 = fifo ↔
      msg.Content.length = 0) ∧
    List.Chain' (· < ·) (Server.broadcast ID NUM_PROCS enc fifo msg).2.2 ∧
    (∀ j, j < NUM_PROCS → j ≠ ID →
      (Server.broadcast ID NUM_PROCS enc fifo msg).2.2.count j = 1) ∧
    ID ∉ (Server.broadcast ID NUM_PROCS enc fifo msg).2.2 := by
  refine ⟨rfl, ?_, ?_, ?_, ?_, ?_⟩
  · show (if msg.Content.length ≠ 0 then fifo ++ [msg] else fifo) = fifo ++ [msg] ↔ _
    by_cases h : msg.Content.length ≠ 0
    · simp [h]
    · rw [if_neg h]
      constructor
      · intro he
        have := congrArg List.length he
        simp at this
      · intro he
        exact absurd he h
  · show (if msg.Content.length ≠ 0 then fifo ++ [msg] else fifo) = fifo ↔ _
    by_cases h : msg.Content.length ≠ 0
    · rw [if_pos h]
      constructor
      · intro he
        have := congrArg List.length he
        simp at this
      · intro he
        exact absurd he h
    · rw [if_neg h]
      constructor
      · intro _
        omega
      · intro _
        rfl
  · exact bcastTargets_chain_aux ID NUM_PROCS (NUM_PROCS - 0) 0 le_rfl
  · intro j hj hne
    exact bcastTargets_count_aux ID NUM_PROCS (NUM_PROCS - 0) 0 le_rfl j (Nat.zero_le j) hj hne
  · exact bcastTargets_not_self_aux ID NUM_PROCS (NUM_PROCS - 0) 0 le_rfl

/-- Witness for C8: with ID = 0 of 2 servers and a non-empty message, the
payload is the encoding, the self copy is appended, and peer 1 is dialed
exactly once. -/
theorem broadcast_spec_witness :
    (0 : Nat) < 2 ∧
    (Server.broadcast 0 2 (fun _ => ['x']) [] ⟨0, 0, ['A']⟩).2.2.count 1 = 1 :=
  ⟨by decide,
   (broadcast_spec 0 2 (fun _ => ['x']) [] ⟨0, 0, ['A']⟩ (by decide)).2.2.2.2.1 1
     (by decide) (by decide)⟩
